import Mathlib

/-!
Shallow embedding of ZWiki's page-hierarchy ("outline") support
(`OutlineSupport.py`), together with theorems checking the natural-language
specification against it.

The repository's source provides `OutlineSupport.py` (the page-level mixins:
the `parents` property, the outline manager, and the HTML rendering of
nestings).  The generic `Outline` class itself (`Outline.py`: `update`,
`reparent`, `reorder`, `firstParent` and the query primitives) is imported by
the source but is not part of the provided files, so those operations are
modelled from the specification; each such definition says so in its doc
comment.

Python lists of strings become `List String`; the per-page `parents` lines
property becomes a field of `Page`; dictionaries (parentmap / childmap)
become association lists with a deterministic, alphabetical key order (the
spec requires the rebuild result to be independent of scan order, with
alphabetical tie-breaks); `None` becomes `Option.none`.  External
collaborators (the catalog, fuzzy name resolution) are modelled as
parameters, and exact-name lookup (`pageWithName`) as a search over the
folder's pages.
-/

/-- A wiki page: its name and its `parents` lines property. -/
structure Page where
  name : String
  parents : List String

/-- Lexicographic comparison of character lists by code point (Python 2
compares byte strings byte-wise; UTF-8 byte order agrees with code-point
order). -/
def lexLe : List Char → List Char → Bool
  | [], _ => true
  | _ :: _, [] => false
  | a :: as, b :: bs =>
      if a.toNat < b.toNat then true
      else if b.toNat < a.toNat then false
      else lexLe as bs

/-- Python's `<=` on strings. -/
def stringLe (a b : String) : Bool := lexLe a.data b.data

/-- Python's `list.sort()` on strings: ascending lexicographic sort.
Modelled with Mathlib's stable insertion sort. -/
def sortStrings (l : List String) : List String :=
  List.insertionSort (fun a b => stringLe a b = true) l

/-- The names of all pages of the wiki folder. -/
def pageNames (pages : List Page) : List String := pages.map (·.name)

/-- Exact-name page lookup (the external `pageWithName` accessor, modelled as
a search over the folder's pages). -/
def pageWithName (pages : List Page) (n : String) : Option Page :=
  pages.find? (fun p => p.name == n)

/-- `ParentsPropertyMixin.setParents`: copy the given list, sort it, store it. -/
def setParentsValue (ps : List String) : List String := sortStrings ps

/-- The cleaned parent list computed by
`ParentsPropertyMixin.ensureValidParents`: resolve each entry via
`pageWithName` (keeping the found page's exact name) and drop the rest,
remove (one occurrence of) the page's own name if present, then sort. -/
def cleanParents (pages : List Page) (selfName : String) (ps : List String) : List String :=
  let resolved := ps.filterMap (fun x => (pageWithName pages x).map (·.name))
  let noSelf := if selfName ∈ resolved then resolved.erase selfName else resolved
  sortStrings noSelf

/-- `ParentsPropertyMixin.ensureValidParents`: if the cleaned list differs
from the stored one, store it via `setParents` (which sorts). -/
def ensureValidParents (pages : List Page) (p : Page) : Page :=
  let c := cleanParents pages p.name p.parents
  if c = p.parents then p else { p with parents := setParentsValue c }

/-- `ParentsPropertyMixin.removeParent`: `list.remove` of the first matching
entry; a `ValueError` (entry absent) is caught and logged, leaving the list
unchanged. -/
def removeParent (p : Page) (parent : String) : Page :=
  { p with parents := p.parents.erase parent }

/-- A nesting: the recursive list-of-lists hierarchy representation.  A bare
string is a singleton entry; a Python sub-list `[head, child1, ...]` with its
string head becomes `node head children` (`node h []` is Python's `[h]`). -/
inductive Nst where
  | leaf (name : String) : Nst
  | node (head : String) (children : List Nst) : Nst

/-- The cached outline aggregate (`PersistentOutline`): parentmap, childmap
and nesting. -/
structure Outline where
  parentmap : List (String × List String)
  childmap : List (String × List String)
  nesting : List Nst

/-- Dictionary lookup on an association list. -/
def lookupA (m : List (String × List String)) (k : String) : Option (List String) :=
  (m.find? (fun e => e.1 == k)).map (·.2)

/-- Dictionary assignment on an association list. -/
def setAssoc (m : List (String × List String)) (k : String) (v : List String) :
    List (String × List String) :=
  match m with
  | [] => [(k, v)]
  | e :: rest => if e.1 == k then (k, v) :: rest else e :: setAssoc rest k v

/-- Update the value stored under key `k`, if present. -/
def mapAssoc (m : List (String × List String)) (k : String) (f : List String → List String) :
    List (String × List String) :=
  m.map (fun e => if e.1 == k then (e.1, f e.2) else e)

/-- The node names known to a parentmap, in canonical (alphabetical,
duplicate-free) order. -/
def nodeKeys (pm : List (String × List String)) : List String :=
  (sortStrings (pm.map (·.1))).dedup

/-- Modelled from the spec (`Outline.py` is not among the provided sources):
the primary parent of a node is the first entry of its parentmap list. -/
def primaryOf (pm : List (String × List String)) (n : String) : Option String :=
  ((lookupA pm n).getD []).head?

/-- Modelled from the spec: the nodes whose primary parent is `p`, in
alphabetical order (the rebuild's scan-order-independent tie-break). -/
def freshChildren (pm : List (String × List String)) (p : String) : List String :=
  (nodeKeys pm).filter (fun n => decide (primaryOf pm n = some p))

/-- Modelled from the spec (rebuild's order-preservation rule): children
already present in the old child list keep their slot order, new children
are appended at the end, dropped children disappear. -/
def newChildren (pm : List (String × List String)) (old : List String) (p : String) :
    List String :=
  old.filter (fun x => decide (x ∈ freshChildren pm p)) ++
    (freshChildren pm p).filter (fun x => decide (x ∉ old))

/-- Modelled from the spec: the childmap entry rebuilt for `p`, or `none`
when `p` ends up with no children ("a node dropped as nobody's child is
removed from ChildMap"). -/
def childEntry (pm cm : List (String × List String)) (p : String) : Option (List String) :=
  let cs := newChildren pm ((lookupA cm p).getD []) p
  if cs = [] then none else some cs

/-- Modelled from the spec (`Outline.update`): derive the new childmap from
the parentmap, seeding each entry's order from the previous childmap. -/
def deriveChildmap (pm cm : List (String × List String)) : List (String × List String) :=
  (nodeKeys pm).filterMap (fun p => (childEntry pm cm p).map (fun cs => (p, cs)))

/-- Modelled from the spec: build the nesting subtree rooted at a node from
the childmap; traversal depth is bounded by fuel (cycles are not defended
against, per the spec's open question). -/
def buildNst (cm : List (String × List String)) : Nat → String → Nst
  | 0, n => .leaf n
  | fuel+1, n =>
      match (lookupA cm n).getD [] with
      | [] => .leaf n
      | cs => .node n (cs.map (buildNst cm fuel))

/-- Modelled from the spec: the roots are the nodes with no (valid) parent. -/
def rootsOf (pm : List (String × List String)) : List String :=
  (nodeKeys pm).filter (fun n => decide ((lookupA pm n).getD [] = []))

/-- Modelled from the spec (`Outline.update`): the nesting forest lists every
root's subtree; parentless childless nodes appear as singletons. -/
def deriveNesting (pm cm : List (String × List String)) : List Nst :=
  (rootsOf pm).map (buildNst cm (nodeKeys pm).length)

/-- The parentmap assembled by `updateWikiOutline`: every page's name mapped
to its (cleaned) parents. -/
def pmOf (pages : List Page) : List (String × List String) :=
  pages.map (fun p => (p.name, p.parents))

/-- Build a fresh outline from the pages' parents properties and the previous
childmap (kept as an ordering hint). -/
def mkOutline (pages : List Page) (oldcm : List (String × List String)) : Outline :=
  let pm := pmOf pages
  let cm := deriveChildmap pm oldcm
  ⟨pm, cm, deriveNesting pm cm⟩

/-- A wiki folder: its pages and the cached outline attribute (absent until
first generated). -/
structure Wiki where
  pages : List Page
  outline : Option Outline

/-- `OutlineManagerMixin.updateWikiOutline`: run `ensureValidParents` on
every page, assemble the parentmap from the cleaned parents, and regenerate
the outline (its `update` preserving the old childmap's subtopic order).
Name resolution inside `ensureValidParents` depends only on page names,
which the loop never changes, so resolving against the pre-loop pages is
faithful to Python's in-place iteration.  The pre-0.39 attribute-migration
branch is not modelled. -/
def updateWikiOutline (w : Wiki) : Wiki :=
  let pages := w.pages.map (ensureValidParents w.pages)
  let oldcm :=
    match w.outline with
    | some o => o.childmap
    | none => []
  { pages := pages, outline := some (mkOutline pages oldcm) }

/-- `OutlineManagerMixin.wikiOutline`: return the cached outline, generating
it first if the folder has none. -/
def wikiOutline (w : Wiki) : Outline × Wiki :=
  match w.outline with
  | some o => (o, w)
  | none =>
      let w' := updateWikiOutline w
      ((w'.outline).getD ⟨[], [], []⟩, w')

/-- Modelled from the spec (`Outline.firstParent`): first entry of
`parentmap[node]`, or none. -/
def firstParent (o : Outline) (n : String) : Option String :=
  ((lookupA o.parentmap n).getD []).head?

/-- Modelled from the spec (`Outline.children`): `childmap[node]`, empty if
absent. -/
def olChildren (o : Outline) (n : String) : List String :=
  (lookupA o.childmap n).getD []

/-- Modelled from the spec (`Outline.siblings`): the children of the primary
parent, minus the node itself. -/
def olSiblings (o : Outline) (n : String) : List String :=
  match firstParent o n with
  | some p => (olChildren o p).filter (fun x => x != n)
  | none => []

/-- Modelled from the spec: follow the primary-parent chain upwards,
eldest first, ending with the node itself; depth bounded by fuel. -/
def chainUp (pm : List (String × List String)) : Nat → String → List String
  | 0, n => [n]
  | fuel+1, n =>
      match primaryOf pm n with
      | none => [n]
      | some p => chainUp pm fuel p ++ [n]

/-- Turn an ancestor chain into a single-branch nesting. -/
def nestChain : List String → List Nst
  | [] => []
  | [a] => [.node a []]
  | a :: rest => [.node a (nestChain rest)]

/-- Modelled from the spec (`Outline.ancestors`): the nesting of the node's
primary-parent ancestor line. -/
def olAncestors (o : Outline) (n : String) : List Nst :=
  nestChain (chainUp o.parentmap o.parentmap.length n)

/-- Modelled from the spec (`Outline.offspring`): the nesting of each given
node's descendants. -/
def olOffspring (o : Outline) (ns : List String) : List Nst :=
  ns.map (buildNst o.childmap o.childmap.length)

mutual

/-- Flatten a nesting tree, pre-order. -/
def flattenNst : Nst → List String
  | .leaf n => [n]
  | .node h cs => h :: flattenForest cs

/-- Flatten a nesting forest, pre-order, left to right. -/
def flattenForest : List Nst → List String
  | [] => []
  | t :: ts => flattenNst t ++ flattenForest ts

end

/-- Modelled from the spec (`Outline.first`): head of the canonical
flattening of the whole forest. -/
def olFirst (o : Outline) : Option String := (flattenForest o.nesting).head?

/-- Modelled from the spec (`Outline.last`): last element of the canonical
flattening. -/
def olLast (o : Outline) : Option String := (flattenForest o.nesting).getLast?

/-- The successor of `n` in a flattened page sequence. -/
def nextIn (n : String) : List String → Option String
  | a :: b :: t => if a == n then some b else nextIn n (b :: t)
  | _ => none

/-- Modelled from the spec (`Outline.next`): the neighbor after `n` in the
canonical flattening. -/
def olNext (o : Outline) (n : String) : Option String := nextIn n (flattenForest o.nesting)

/-- The predecessor of `n` in a flattened page sequence. -/
def prevIn (n : String) : List String → Option String
  | a :: b :: t => if b == n then some a else prevIn n (b :: t)
  | _ => none

/-- Modelled from the spec (`Outline.previous`): the neighbor before `n` in
the canonical flattening. -/
def olPrevious (o : Outline) (n : String) : Option String :=
  prevIn n (flattenForest o.nesting)

/-- Append `c` at the end of `p`'s child list, creating the entry if needed. -/
def appendChild (cm : List (String × List String)) (p c : String) :
    List (String × List String) :=
  match cm with
  | [] => [(p, [c])]
  | e :: rest => if e.1 == p then (e.1, e.2 ++ [c]) :: rest else e :: appendChild rest p c

/-- Modelled from the spec (`Outline.reparent`): record the node's new
(first-seen-order) parent list in the parentmap, remove the node from the
child lists of parents it is no longer under, append it at the end of the
child list of each new parent, and recompute the nesting. -/
def olReparent (o : Outline) (node : String) (ps : List String) : Outline :=
  let oldps := (lookupA o.parentmap node).getD []
  let removed := oldps.filter (fun x => decide (x ∉ ps))
  let added := ps.filter (fun x => decide (x ∉ oldps))
  let pm := setAssoc o.parentmap node ps
  let cm1 := o.childmap.map (fun e =>
    if e.1 ∈ removed then (e.1, e.2.filter (fun x => x != node)) else e)
  let cm2 := added.foldl (fun cm p => appendChild cm p node) cm1
  ⟨pm, cm2, deriveNesting pm cm2⟩

/-- Modelled from the spec (`Outline.reorder`): swap (the first occurrence
of) `c` with its immediate left neighbor; no-op if `c` is absent or first. -/
def reorderChildren (c : String) : List String → List String
  | x :: y :: rest =>
      if x = c then x :: y :: rest
      else if y = c then y :: x :: rest
      else x :: reorderChildren c (y :: rest)
  | l => l

/-- Modelled from the spec (`Outline.reorder`): apply the left-swap to the
node's childmap entry and recompute the nesting. -/
def olReorder (o : Outline) (n c : String) : Outline :=
  let cm := mapAssoc o.childmap n (reorderChildren c)
  ⟨o.parentmap, cm, deriveNesting o.parentmap cm⟩

/-- The `uniqueparents` loop of `OutlineManagerMixin.reparent`: drop
duplicates keeping the first occurrence. -/
def dedupFirstSeen (l : List String) : List String :=
  l.foldl (fun acc p => if p ∈ acc then acc else acc ++ [p]) []

/-- The argument cleaning of `OutlineManagerMixin.reparent` (list-argument
path, no `pagename` form field): drop empty strings, resolve each candidate
through the external fuzzy resolver (`pageWithFuzzyName` followed by taking
the found page's exact `Title`, both external, combined into `resolve`),
drop the unresolved ones, and deduplicate keeping first-seen order. -/
def reparentClean (resolve : String → Option String) (cands : List String) : List String :=
  let ps := cands.filter (fun x => x != "")
  let rs := ps.filterMap resolve
  dedupFirstSeen rs

/-- `OutlineManagerMixin.reparent`: clean the candidate names, store them on
the page via `setParents` (which sorts), then patch the cached outline with
the first-seen-order list and reindex. -/
def reparent (resolve : String → Option String) (w : Wiki) (name : String)
    (cands : List String) : Wiki :=
  let unique := reparentClean resolve cands
  let pages := w.pages.map (fun p =>
    if p.name == name then { p with parents := setParentsValue unique } else p)
  let ow := wikiOutline { w with pages := pages }
  { ow.2 with outline := some (olReparent ow.1 name unique) }

/-- `OutlineManagerMixin.reorder`: no-op unless `child` is among the page's
children (`childrenAsList`), otherwise delegate to the outline's reorder. -/
def reorderOp (w : Wiki) (name child : String) : Wiki :=
  let ow1 := wikiOutline w
  let cs := olChildren ow1.1 name
  if child ∈ cs then
    let ow2 := wikiOutline ow1.2
    { ow2.2 with outline := some (olReorder ow2.1 name child) }
  else ow1.2

/-- `OutlineManagerMixin.primaryParentName` as a state transformer: fetch the
(possibly lazily generated) outline, then query it. -/
def primaryParentNameQ (w : Wiki) (n : String) : Option String × Wiki :=
  let ow := wikiOutline w
  (firstParent ow.1 n, ow.2)

/-- `OutlineManagerMixin.childrenAsList` as a state transformer. -/
def childrenAsListQ (w : Wiki) (n : String) : List String × Wiki :=
  let ow := wikiOutline w
  (olChildren ow.1 n, ow.2)

/-- `OutlineManagerMixin.siblingsAsList` as a state transformer. -/
def siblingsAsListQ (w : Wiki) (n : String) : List String × Wiki :=
  let ow := wikiOutline w
  (olSiblings ow.1 n, ow.2)

/-- `OutlineManagerMixin.ancestorsNesting` as a state transformer. -/
def ancestorsNestingQ (w : Wiki) (n : String) : List Nst × Wiki :=
  let ow := wikiOutline w
  (olAncestors ow.1 n, ow.2)

/-- `OutlineManagerMixin.offspringNesting` as a state transformer. -/
def offspringNestingQ (w : Wiki) (n : String) : List Nst × Wiki :=
  let ow := wikiOutline w
  (olOffspring ow.1 [n], ow.2)

/-- `OutlineManagerMixin.firstPage` as a state transformer. -/
def firstPageQ (w : Wiki) : Option String × Wiki :=
  let ow := wikiOutline w
  (olFirst ow.1, ow.2)

/-- `OutlineManagerMixin.lastPage` as a state transformer. -/
def lastPageQ (w : Wiki) : Option String × Wiki :=
  let ow := wikiOutline w
  (olLast ow.1, ow.2)

/-- `OutlineManagerMixin.nextPage` as a state transformer. -/
def nextPageQ (w : Wiki) (n : String) : Option String × Wiki :=
  let ow := wikiOutline w
  (olNext ow.1 n, ow.2)

/-- `OutlineManagerMixin.previousPage` as a state transformer. -/
def previousPageQ (w : Wiki) (n : String) : Option String × Wiki :=
  let ow := wikiOutline w
  (olPrevious ow.1 n, ow.2)

/-- The stored parents of the (first) page with the given name. -/
def parentsOf (w : Wiki) (n : String) : List String :=
  ((w.pages.find? (fun p => p.name == n)).map (·.parents)).getD []

/-- The cached outline's parentmap entry for a node, if the outline exists. -/
def outlinePMof (w : Wiki) (n : String) : Option (List String) :=
  match w.outline with
  | some o => lookupA o.parentmap n
  | none => none

/-- The cached outline's child list for a node (empty when the outline or
the entry is absent). -/
def outlineChildrenOf (w : Wiki) (n : String) : List String :=
  match w.outline with
  | some o => olChildren o n
  | none => []

/-- Append a suffix to the last element of a non-empty string list
(Python's `got[-1] += ' ...'`). -/
def appendLast : List String → String → List String
  | [], _ => []
  | [x], s => [x ++ s]
  | x :: y :: rest, s => x :: appendLast (y :: rest) s

mutual

/-- The `got`-building of `OutlineRenderingMixin.renderNesting` for a list
item `n` of a nesting (the `type(n) == ListType` branch): emit the head
line, its children between `<ul>`/`</ul>` (or mark a childless parent with
`' ...'`), and the closing `</li>`; lines for the current page are skipped
when `suppress_current` is set. -/
def gotNode (sc : Bool) (here : String) (indent : String) (got : List String)
    (h : String) (cs : List Nst) : List String :=
  let skip := sc && (h == here)
  let g1 := if skip then got else got ++ [indent ++ " <li>[" ++ h ++ "]"]
  let g2 :=
    if cs.isEmpty then appendLast g1 " ..."
    else
      let ga := if skip then g1 else g1 ++ ["<ul>"]
      let gb := gotKids sc here indent ga cs
      if skip then gb else gb ++ ["</ul>"]
  if skip then g2 else g2 ++ [indent ++ " </li>"]

/-- The inner `for i in n[1:]` loop of `renderNesting`: a string child is
emitted as a `<li>` line at the current indent, a list child recurses with
one more indent space. -/
def gotKids (sc : Bool) (here : String) (indent : String) (got : List String) :
    List Nst → List String
  | [] => got
  | .leaf n :: rest =>
      gotKids sc here indent (got ++ [indent ++ " <li>[" ++ n ++ "]</li>"]) rest
  | .node h cs :: rest =>
      gotKids sc here indent (gotNode sc here (indent ++ " ") got h cs) rest

end

/-- The top-level `for n in nesting` loop of `renderNesting` (indent is the
empty string there; list items are processed in place, not indented). -/
def gotTop (sc : Bool) (here : String) (got : List String) : List Nst → List String
  | [] => got
  | .leaf n :: rest => gotTop sc here (got ++ [" <li>[" ++ n ++ "]</li>"]) rest
  | .node h cs :: rest => gotTop sc here (gotNode sc here "" got h cs) rest

/-- Leftmost non-overlapping literal replacement on character lists
(Python's `re.sub` with a `re.escape`d pattern); fuel bounds the scan. -/
def replFuel (pat rep : List Char) : Nat → List Char → List Char
  | 0, s => s
  | _+1, [] => []
  | f+1, c :: rest =>
      if pat.isPrefixOf (c :: rest) then rep ++ replFuel pat rep f ((c :: rest).drop pat.length)
      else c :: replFuel pat rep f rest

/-- Replace every occurrence of the literal `pat` in `s` by `rep`
(`re.sub(re.escape(pat), rep, s)`). -/
def pyReplace (s pat rep : String) : String :=
  ⟨replFuel pat.data rep.data s.data.length s.data⟩

/-- Scan up to the closing `]` of a bracketed expression: the characters
before it and the remainder after it. -/
def splitClose : List Char → Option (List Char × List Char)
  | [] => none
  | c :: rest =>
      if c = ']' then some ([], rest)
      else (splitClose rest).map (fun q => (c :: q.1, q.2))

/-- Modelled from the spec (the `bracketedexpr` regex lives in the external
`Regexps` module): rewrite every `[name]` span through `f`; fuel bounds the
scan. -/
def substBracketsFuel (f : String → String) : Nat → List Char → List Char
  | 0, s => s
  | _+1, [] => []
  | fuel+1, c :: rest =>
      if c = '[' then
        match splitClose rest with
        | some q => (f ⟨q.1⟩).data ++ substBracketsFuel f fuel q.2
        | none => c :: substBracketsFuel f fuel rest
      else c :: substBracketsFuel f fuel rest

/-- Rewrite every `[name]` span of `s` through `f` (the `quicklink`
substitution of `renderNesting`). -/
def substBrackets (f : String → String) (s : String) : String :=
  ⟨substBracketsFuel f s.data.length s.data⟩

/-- The external formatting collaborators of the rendering mixin, plus the
rendering page's identity. -/
structure RenderCfg where
  wiki_url : String
  page_url : String
  pageName : String
  canonicalIdFrom : String → String
  formatWikiname : String → String
  urlquote : String → String

/-- The `quicklink` callback of `renderNesting`. -/
def quicklink (cfg : RenderCfg) (page : String) : String :=
  "<a href=\"" ++ cfg.wiki_url ++ "/" ++ cfg.canonicalIdFrom page ++ "\" name=\"" ++
    cfg.urlquote page ++ "\">" ++ cfg.formatWikiname page ++ "</a>"

/-- `Defaults.SHOW_CURRENT_PAGE_IN_CONTENTS` (an external constant; its value
does not matter for the theorems below, which take the `enlarge_current`
branch). -/
def SHOW_CURRENT_PAGE_IN_CONTENTS : Bool := true

/-- Python truthiness check on the top guard `nesting[0] == here` (only
evaluated under `suppress_current`; a list first element never equals the
string `here`). -/
def firstIsHere (nesting : List Nst) (here : String) : Bool :=
  match nesting with
  | .leaf n :: _ => n == here
  | _ => false

/-- `OutlineRenderingMixin.renderNesting`: build the `got` lines starting
from the `aqtree3clickable` `<ul>`, join with newlines, then apply the
`here`-highlighting substitutions and the bracketed-link rewriting. -/
def renderNesting (cfg : RenderCfg) (nesting : List Nst) (here : String)
    (enlarge suppressHyp sc : Bool) : String :=
  if sc && firstIsHere nesting here then "" else
  let got := gotTop sc here ["<ul class=\"aqtree3clickable\">"] nesting
  let got := got ++ ["</ul>"]
  let t := String.intercalate "\n" got
  let t :=
    if here != "" then
      let t :=
        if enlarge then
          let t := pyReplace t ("[" ++ here ++ "]")
            ("<big><big><big><big><strong>[" ++ here ++
              "]</strong></big></big></big></big>")
          pyReplace t ("[" ++ cfg.pageName ++ "]")
            ("<a href=\"" ++ cfg.page_url ++ "/backlinks\" title=\"" ++
              "which pages link to this one ?" ++ "\">" ++
              cfg.formatWikiname cfg.pageName ++ "</a>")
        else if SHOW_CURRENT_PAGE_IN_CONTENTS then
          pyReplace t ("[" ++ here ++ "]")
            ("[" ++ here ++ "] <b><-- You are here.</b>")
        else t
      if suppressHyp then pyReplace t ("[" ++ here ++ "]") ("![" ++ here ++ "]") else t
    else t
  substBrackets (quicklink cfg) t

/-- The length-test of the "looks like cruft" guard in `context`:
`len(nesting) == 1 and len(nesting[0]) == 1` (a one-character string, or a
Python list holding only the head). -/
def shortNesting (nesting : List Nst) : Bool :=
  match nesting with
  | [] => true
  | [.leaf s] => s.length == 1
  | [.node _ cs] => cs.isEmpty
  | _ => false

/-- `OutlineRenderingMixin.context` from the point where the nesting has
been obtained (the `with_siblings=0`, `REQUEST=None` path, so `here` is the
page's own name and `suppress_hyperlink` stays 0): render the nesting and,
if the rendered hierarchy is the literal `'<ul>\n</ul>'`, clear the page's
parents (`setParents([])`), reindex and re-render.  Returns the HTML and the
page's parents property afterwards. -/
def contextFromNesting (cfg : RenderCfg) (parents : List String) (nesting : List Nst)
    (enlarge : Bool) : String × List String :=
  let here := cfg.pageName
  if shortNesting nesting && !enlarge then ("&nbsp;", parents)
  else
    let hierarchy := renderNesting cfg nesting here enlarge false false
    if hierarchy = "<ul>\n</ul>" then
      let parents' : List String := setParentsValue []
      let hierarchy := renderNesting cfg nesting here enlarge false false
      ("<small>" ++ hierarchy ++ "\n</small>", parents')
    else ("<small>" ++ hierarchy ++ "\n</small>", parents)

/-- A store of Python list objects: cell index to contents.  Used to state
aliasing facts about `getParents`. -/
abbrev ListHeap : Type := List (List String)

/-- `ParentsPropertyMixin.getParents`: `list(self.parents)` allocates a fresh
list object holding a copy of the stored parents; returns the new cell's
index and the grown heap. -/
def getParentsAlloc (h : ListHeap) (stored : Nat) : Nat × ListHeap :=
  (List.length h, h ++ [(h[stored]?).getD []])

/-- Mutate a list object in place (any in-place Python list operation on the
value returned by `getParents`). -/
def writeCell (h : ListHeap) (i : Nat) (v : List String) : ListHeap :=
  h.set i v

/-! Helper lemmas about sorting and parent cleaning. -/

theorem lexLe_refl : ∀ as : List Char, lexLe as as = true
  | [] => rfl
  | a :: as => by simp [lexLe, Nat.lt_irrefl, lexLe_refl as]

theorem lexLe_total : ∀ as bs : List Char, lexLe as bs = true ∨ lexLe bs as = true
  | [], _ => Or.inl rfl
  | _ :: _, [] => Or.inr rfl
  | a :: as, b :: bs => by
      rcases Nat.lt_trichotomy a.toNat b.toNat with h | h | h
      · left; simp [lexLe, h]
      · have h1 : ¬ a.toNat < b.toNat := by omega
        have h2 : ¬ b.toNat < a.toNat := by omega
        rcases lexLe_total as bs with ht | ht
        · left; simp [lexLe, h1, h2, ht]
        · right; simp [lexLe, h1, h2, ht]
      · right; simp [lexLe, h]

theorem lexLe_trans : ∀ as bs cs : List Char,
    lexLe as bs = true → lexLe bs cs = true → lexLe as cs = true
  | [], _, _, _, _ => rfl
  | _ :: _, [], _, h, _ => by simp [lexLe] at h
  | _ :: _, _ :: _, [], _, h => by simp [lexLe] at h
  | a :: as, b :: bs, c :: cs, h1, h2 => by
      simp only [lexLe] at h1 h2 ⊢
      by_cases hab : a.toNat < b.toNat
      · by_cases hbc : b.toNat < c.toNat
        · rw [if_pos (show a.toNat < c.toNat by omega)]
        · by_cases hcb : c.toNat < b.toNat
          · rw [if_neg hbc, if_pos hcb] at h2
            exact absurd h2 (by simp)
          · rw [if_pos (show a.toNat < c.toNat by omega)]
      · by_cases hba : b.toNat < a.toNat
        · rw [if_neg hab, if_pos hba] at h1
          exact absurd h1 (by simp)
        · by_cases hbc : b.toNat < c.toNat
          · rw [if_pos (show a.toNat < c.toNat by omega)]
          · by_cases hcb : c.toNat < b.toNat
            · rw [if_neg hbc, if_pos hcb] at h2
              exact absurd h2 (by simp)
            · rw [if_neg hab, if_neg hba] at h1
              rw [if_neg hbc, if_neg hcb] at h2
              rw [if_neg (show ¬ a.toNat < c.toNat by omega),
                if_neg (show ¬ c.toNat < a.toNat by omega)]
              exact lexLe_trans as bs cs h1 h2

theorem stringLe_total (a b : String) : stringLe a b = true ∨ stringLe b a = true :=
  lexLe_total a.data b.data

theorem stringLe_trans {a b c : String} (h1 : stringLe a b = true)
    (h2 : stringLe b c = true) : stringLe a c = true :=
  lexLe_trans a.data b.data c.data h1 h2

theorem sortStrings_sorted (l : List String) :
    List.Sorted (fun a b => stringLe a b = true) (sortStrings l) := by
  haveI : IsTotal String (fun a b => stringLe a b = true) := ⟨stringLe_total⟩
  haveI : IsTrans String (fun a b => stringLe a b = true) := ⟨fun _ _ _ => stringLe_trans⟩
  exact List.sorted_insertionSort _ l

theorem sortStrings_of_sorted {l : List String}
    (h : List.Sorted (fun a b => stringLe a b = true) l) : sortStrings l = l :=
  List.Sorted.insertionSort_eq h

theorem mem_sortStrings {l : List String} {x : String} : x ∈ sortStrings l ↔ x ∈ l :=
  (List.perm_insertionSort _ l).mem_iff

theorem pageWithName_name (pages : List Page) (x : String) :
    (pageWithName pages x).map (·.name) = if x ∈ pageNames pages then some x else none := by
  induction pages with
  | nil => simp [pageWithName, pageNames]
  | cons p ps ih =>
      by_cases hpx : p.name = x
      · subst hpx
        simp [pageWithName, List.find?_cons, pageNames]
      · have hb : (p.name == x) = false := by simpa using hpx
        simp only [pageWithName, List.find?_cons, hb] at ih ⊢
        rw [ih]
        have : (x ∈ pageNames (p :: ps)) ↔ (x ∈ pageNames ps) := by
          simp [pageNames, Ne.symm hpx]
        by_cases hx : x ∈ pageNames ps
        · simp [hx, this]
        · simp [hx, this]

theorem resolved_eq_filter (pages : List Page) (ps : List String) :
    ps.filterMap (fun x => (pageWithName pages x).map (·.name)) =
      ps.filter (fun x => decide (x ∈ pageNames pages)) := by
  induction ps with
  | nil => rfl
  | cons a t ih =>
      rw [List.filterMap_cons, List.filter_cons, pageWithName_name]
      by_cases ha : a ∈ pageNames pages
      · simp [ha, ih]
      · simp [ha, ih]

theorem cleanParents_eq (pages : List Page) (s : String) (ps : List String) :
    cleanParents pages s ps =
      sortStrings ((ps.filter (fun x => decide (x ∈ pageNames pages))).erase s) := by
  unfold cleanParents
  rw [resolved_eq_filter]
  by_cases hs : s ∈ ps.filter (fun x => decide (x ∈ pageNames pages))
  · simp [hs]
  · simp [hs, List.erase_of_not_mem hs]

theorem cleanParents_sorted (pages : List Page) (s : String) (ps : List String) :
    List.Sorted (fun a b => stringLe a b = true) (cleanParents pages s ps) := by
  rw [cleanParents_eq]; exact sortStrings_sorted _

theorem mem_cleanParents {pages : List Page} {s x : String} {ps : List String}
    (h : x ∈ cleanParents pages s ps) : x ∈ pageNames pages := by
  rw [cleanParents_eq] at h
  have h2 := mem_sortStrings.mp h
  have h3 := List.mem_of_mem_erase h2
  have h4 := List.of_mem_filter h3
  simpa using h4

theorem self_not_mem_cleanParents {pages : List Page} {s : String} {ps : List String}
    (h : List.count s ps ≤ 1) : s ∉ cleanParents pages s ps := by
  rw [cleanParents_eq]
  intro hmem
  have h1 := mem_sortStrings.mp hmem
  have hc : List.count s (ps.filter (fun x => decide (x ∈ pageNames pages))) ≤ 1 :=
    le_trans (List.Sublist.count_le (List.filter_sublist ps) s) h
  have hz : List.count s ((ps.filter (fun x => decide (x ∈ pageNames pages))).erase s) = 0 := by
    rw [List.count_erase_self]; omega
  exact absurd h1 (by rwa [List.count_eq_zero] at hz)

theorem cleanParents_fixed {pages pages' : List Page} {s : String} {ps : List String}
    (hn : pageNames pages' = pageNames pages) (h : List.count s ps ≤ 1) :
    cleanParents pages' s (cleanParents pages s ps) = cleanParents pages s ps := by
  rw [cleanParents_eq pages', hn]
  have hfilter : (cleanParents pages s ps).filter (fun x => decide (x ∈ pageNames pages)) =
      cleanParents pages s ps := by
    rw [List.filter_eq_self]
    intro a ha; simpa using mem_cleanParents ha
  rw [hfilter, List.erase_of_not_mem (self_not_mem_cleanParents h),
    sortStrings_of_sorted (cleanParents_sorted pages s ps)]

theorem ensureValidParents_parents (pages : List Page) (p : Page) :
    (ensureValidParents pages p).parents = cleanParents pages p.name p.parents := by
  unfold ensureValidParents
  by_cases hc : cleanParents pages p.name p.parents = p.parents
  · simp [hc]
  · simp only [hc, if_false, setParentsValue]
    rw [sortStrings_of_sorted (cleanParents_sorted pages p.name p.parents)]

theorem ensureValidParents_name (pages : List Page) (p : Page) :
    (ensureValidParents pages p).name = p.name := by
  unfold ensureValidParents
  by_cases hc : cleanParents pages p.name p.parents = p.parents <;> simp [hc]

theorem pageNames_map_evp (pages qs : List Page) :
    pageNames (qs.map (ensureValidParents pages)) = pageNames qs := by
  simp only [pageNames, List.map_map]
  exact List.map_congr_left (fun p _ => ensureValidParents_name pages p)

theorem evp_fixed {pages pages' : List Page} {p : Page}
    (hn : pageNames pages' = pageNames pages) (h : List.count p.name p.parents ≤ 1) :
    ensureValidParents pages' (ensureValidParents pages p) = ensureValidParents pages p := by
  have hp : cleanParents pages' (ensureValidParents pages p).name
      (ensureValidParents pages p).parents = (ensureValidParents pages p).parents := by
    rw [ensureValidParents_name, ensureValidParents_parents, cleanParents_fixed hn h]
  generalize hq : ensureValidParents pages p = q at hp ⊢
  unfold ensureValidParents
  simp [hp]

/-! Helper lemmas about the childmap derivation. -/

theorem mem_newChildren_fresh {pm : List (String × List String)} {old : List String}
    {p x : String} (h : x ∈ newChildren pm old p) : x ∈ freshChildren pm p := by
  unfold newChildren at h
  rcases List.mem_append.mp h with h | h
  · have := List.of_mem_filter h; simpa using this
  · exact List.mem_of_mem_filter h

theorem fresh_mem_newChildren {pm : List (String × List String)} {old : List String}
    {p x : String} (h : x ∈ freshChildren pm p) : x ∈ newChildren pm old p := by
  unfold newChildren
  by_cases hx : x ∈ old
  · exact List.mem_append.mpr (Or.inl (List.mem_filter.mpr ⟨hx, by simpa using h⟩))
  · exact List.mem_append.mpr (Or.inr (List.mem_filter.mpr ⟨h, by simpa using hx⟩))

theorem newChildren_of_covers {pm : List (String × List String)} {p : String}
    {old : List String} (h1 : ∀ x ∈ old, x ∈ freshChildren pm p)
    (h2 : ∀ x ∈ freshChildren pm p, x ∈ old) : newChildren pm old p = old := by
  unfold newChildren
  rw [List.filter_eq_self.mpr (fun a ha => by simpa using h1 a ha),
    List.filter_eq_nil_iff.mpr (fun a ha => by simpa using h2 a ha), List.append_nil]

theorem newChildren_idem (pm : List (String × List String)) (old : List String) (p : String) :
    newChildren pm (newChildren pm old p) p = newChildren pm old p :=
  newChildren_of_covers (fun _ hx => mem_newChildren_fresh hx)
    (fun _ hx => fresh_mem_newChildren hx)

theorem freshChildren_eq_nil {pm : List (String × List String)} {old : List String}
    {p : String} (h : newChildren pm old p = []) : freshChildren pm p = [] := by
  apply List.eq_nil_iff_forall_not_mem.mpr
  intro x hx
  have := @fresh_mem_newChildren pm old p x hx
  rw [h] at this
  exact absurd this (List.not_mem_nil x)

theorem newChildren_nil (pm : List (String × List String)) (p : String) :
    newChildren pm [] p = freshChildren pm p := by
  unfold newChildren
  simp

theorem lookupA_filterMap_keys (keys : List String) (g : String → Option (List String))
    (p : String) (hnd : keys.Nodup) :
    lookupA (keys.filterMap (fun k => (g k).map (fun v => (k, v)))) p =
      if p ∈ keys then g p else none := by
  induction keys with
  | nil => simp [lookupA]
  | cons k ks ih =>
      have hk : k ∉ ks := (List.nodup_cons.mp hnd).1
      have hnd' := (List.nodup_cons.mp hnd).2
      rw [List.filterMap_cons]
      cases hg : g k with
      | none =>
          simp only [hg, Option.map_none']
          rw [ih hnd']
          by_cases hp : p = k
          · subst hp; simp [hk, hg]
          · simp [hp]
      | some v =>
          simp only [hg, Option.map_some']
          by_cases hp : p = k
          · subst hp
            simp [lookupA, List.find?_cons, hg]
          · have hb : (k == p) = false := by simpa using Ne.symm hp
            have step : lookupA ((k, v) :: ks.filterMap (fun k => (g k).map (fun v => (k, v)))) p
                = lookupA (ks.filterMap (fun k => (g k).map (fun v => (k, v)))) p := by
              simp [lookupA, List.find?_cons, hb]
            rw [step, ih hnd']
            simp [hp]

theorem nodeKeys_nodup (pm : List (String × List String)) : (nodeKeys pm).Nodup :=
  List.nodup_dedup _

theorem lookupA_deriveChildmap (pm cm : List (String × List String)) (p : String) :
    lookupA (deriveChildmap pm cm) p =
      if p ∈ nodeKeys pm then childEntry pm cm p else none := by
  unfold deriveChildmap
  exact lookupA_filterMap_keys _ _ _ (nodeKeys_nodup pm)

theorem childEntry_idem (pm cm : List (String × List String)) (p : String)
    (hp : p ∈ nodeKeys pm) :
    childEntry pm (deriveChildmap pm cm) p = childEntry pm cm p := by
  have hl : lookupA (deriveChildmap pm cm) p = childEntry pm cm p := by
    rw [lookupA_deriveChildmap, if_pos hp]
  cases hce : childEntry pm cm p with
  | none =>
      have hnil : newChildren pm ((lookupA cm p).getD []) p = [] := by
        unfold childEntry at hce
        by_cases h : newChildren pm ((lookupA cm p).getD []) p = []
        · exact h
        · simp [h] at hce
      unfold childEntry
      rw [hl, hce]
      simp [newChildren_nil, freshChildren_eq_nil hnil]
  | some cs =>
      have hcs : cs = newChildren pm ((lookupA cm p).getD []) p ∧ cs ≠ [] := by
        unfold childEntry at hce
        by_cases h : newChildren pm ((lookupA cm p).getD []) p = []
        · simp [h] at hce
        · simp [h] at hce; exact ⟨hce.symm, hce ▸ h⟩
      unfold childEntry
      rw [hl, hce]
      simp only [Option.getD_some]
      rw [hcs.1, newChildren_idem, ← hcs.1]
      simp [hcs.2]

theorem deriveChildmap_idem (pm cm : List (String × List String)) :
    deriveChildmap pm (deriveChildmap pm cm) = deriveChildmap pm cm := by
  conv_lhs => rw [deriveChildmap]
  conv_rhs => rw [deriveChildmap]
  exact List.filterMap_congr (fun p hp => by rw [childEntry_idem pm cm p hp])

theorem updateWikiOutline_def (w : Wiki) :
    updateWikiOutline w = ⟨w.pages.map (ensureValidParents w.pages),
      some (mkOutline (w.pages.map (ensureValidParents w.pages))
        ((w.outline.map Outline.childmap).getD []))⟩ := by
  unfold updateWikiOutline
  cases w.outline <;> rfl

theorem mkOutline_idem (pages : List Page) (oldcm : List (String × List String)) :
    mkOutline pages (mkOutline pages oldcm).childmap = mkOutline pages oldcm := by
  simp only [mkOutline]
  rw [deriveChildmap_idem]

/-- C2 (amended): `updateWikiOutline` applied twice in a row with no
intervening mutation yields a state (pages and the outline's ParentMap,
ChildMap and Nesting) identical to that after the first call — provided no
page's stored parent list contains that page's own name more than once.
(`ensureValidParents` removes only one occurrence of the page's own name per
run, so a duplicated self-parent still changes between the two calls; see
the counterexample theorem.) -/
theorem updateWikiOutline_idem (w : Wiki)
    (h : ∀ p ∈ w.pages, List.count p.name p.parents ≤ 1) :
    updateWikiOutline (updateWikiOutline w) = updateWikiOutline w := by
  have hnames : pageNames (w.pages.map (ensureValidParents w.pages)) = pageNames w.pages :=
    pageNames_map_evp w.pages w.pages
  have hP : (w.pages.map (ensureValidParents w.pages)).map
      (ensureValidParents (w.pages.map (ensureValidParents w.pages))) =
      w.pages.map (ensureValidParents w.pages) := by
    rw [List.map_map]
    apply List.map_congr_left
    intro p hp
    simpa using evp_fixed hnames (h p hp)
  rw [updateWikiOutline_def w, updateWikiOutline_def]
  simp only [Option.map_some', Option.getD_some]
  rw [hP, mkOutline_idem]

/-- C2 witness: the idempotence theorem applied to a concrete two-page wiki. -/
theorem updateWikiOutline_idem_witness :
    updateWikiOutline (updateWikiOutline
        ⟨[⟨"Home", []⟩, ⟨"Projects", ["Home"]⟩], none⟩) =
      updateWikiOutline ⟨[⟨"Home", []⟩, ⟨"Projects", ["Home"]⟩], none⟩ :=
  updateWikiOutline_idem _ (by decide)

/-- C2 counterexample: on a wiki whose single page "PageA" lists itself as a
parent twice, the first rebuild leaves ParentMap entry `["PageA"]` (only one
occurrence of the self-parent is removed) while the second leaves `[]`, so
the two rebuilds do not yield identical ParentMaps. -/
theorem updateWikiOutline_not_idem_cex :
    (updateWikiOutline (updateWikiOutline
        ⟨[⟨"PageA", ["PageA", "PageA"]⟩], none⟩)).outline.map Outline.parentmap ≠
      (updateWikiOutline ⟨[⟨"PageA", ["PageA", "PageA"]⟩], none⟩).outline.map
        Outline.parentmap := by
  decide

/-- C3 (amended): after `ensureValidParents` the stored parent list is
sorted alphabetically, contains only names that resolve to existing pages,
and does not contain the page's own name provided that name occurred at
most once in the stored list before validation (Python's `list.remove`
deletes a single occurrence; see the counterexample for the duplicated
case). -/
theorem ensureValidParents_spec (pages : List Page) (p : Page)
    (h : List.count p.name p.parents ≤ 1) :
    List.Sorted (fun a b => stringLe a b = true) (ensureValidParents pages p).parents ∧
    (∀ x ∈ (ensureValidParents pages p).parents, x ∈ pageNames pages) ∧
    p.name ∉ (ensureValidParents pages p).parents := by
  rw [ensureValidParents_parents]
  exact ⟨cleanParents_sorted _ _ _, fun _ hx => mem_cleanParents hx,
    self_not_mem_cleanParents h⟩

/-- C3 witness: validation of a concrete page with a dangling entry, a self
entry and two valid parents listed in non-alphabetical order. -/
theorem ensureValidParents_spec_witness :
    List.Sorted (fun a b => stringLe a b = true) (ensureValidParents
        [⟨"Apple", []⟩, ⟨"Zoo", []⟩, ⟨"Me", ["Zoo", "Me", "Gone", "Apple"]⟩]
        ⟨"Me", ["Zoo", "Me", "Gone", "Apple"]⟩).parents ∧
    (∀ x ∈ (ensureValidParents
        [⟨"Apple", []⟩, ⟨"Zoo", []⟩, ⟨"Me", ["Zoo", "Me", "Gone", "Apple"]⟩]
        ⟨"Me", ["Zoo", "Me", "Gone", "Apple"]⟩).parents,
      x ∈ pageNames [⟨"Apple", []⟩, ⟨"Zoo", []⟩, ⟨"Me", ["Zoo", "Me", "Gone", "Apple"]⟩]) ∧
    "Me" ∉ (ensureValidParents
        [⟨"Apple", []⟩, ⟨"Zoo", []⟩, ⟨"Me", ["Zoo", "Me", "Gone", "Apple"]⟩]
        ⟨"Me", ["Zoo", "Me", "Gone", "Apple"]⟩).parents :=
  ensureValidParents_spec _ _ (by decide)

/-- C3 counterexample: a page that lists itself as a parent twice still
contains its own name after validation (only one occurrence is removed), so
"a node is never its own parent after validation" fails as stated. -/
theorem ensureValidParents_self_cex :
    "PageB" ∈ (ensureValidParents [⟨"PageB", ["PageB", "PageB"]⟩]
      ⟨"PageB", ["PageB", "PageB"]⟩).parents := by
  decide

/-- C9: `removeParent` with a name that is not among the page's parents is a
silent no-op (the `ValueError` from `list.remove` is caught and only
logged), and with a present name it removes exactly the first occurrence of
that one entry. -/
theorem removeParent_spec (p : Page) (parent : String) :
    (parent ∉ p.parents → (removeParent p parent).parents = p.parents) ∧
    (∀ pre post, p.parents = pre ++ parent :: post → parent ∉ pre →
      (removeParent p parent).parents = pre ++ post) := by
  constructor
  · intro h
    simp [removeParent, List.erase_of_not_mem h]
  · intro pre post hsplit hpre
    simp only [removeParent]
    rw [hsplit, List.erase_append_right _ hpre, List.erase_cons_head]

/-- C9 witness: removing an absent parent leaves a concrete page unchanged;
removing a present one deletes exactly that first occurrence. -/
theorem removeParent_spec_witness :
    (removeParent ⟨"A", ["P", "Q"]⟩ "X").parents = ["P", "Q"] ∧
    (removeParent ⟨"A", ["P", "Q", "P"]⟩ "Q").parents = ["P", "P"] :=
  ⟨(removeParent_spec ⟨"A", ["P", "Q"]⟩ "X").1 (by decide),
   (removeParent_spec ⟨"A", ["P", "Q", "P"]⟩ "Q").2 ["P"] ["P"] (by decide) (by decide)⟩

/-- C10: `getParents` returns a fresh copy: mutating the returned list
object afterwards leaves the page's stored parents cell unchanged. -/
theorem getParents_fresh (h : ListHeap) (stored : Nat) (hs : stored < h.length)
    (v : List String) :
    (writeCell (getParentsAlloc h stored).2 (getParentsAlloc h stored).1 v)[stored]? =
      h[stored]? := by
  unfold getParentsAlloc writeCell
  rw [List.getElem?_set_ne (Nat.ne_of_gt hs)]
  exact List.getElem?_append_left hs

/-- C10 witness: the freshness theorem applied to a one-page heap. -/
theorem getParents_fresh_witness :
    (writeCell (getParentsAlloc [["X"]] 0).2 (getParentsAlloc [["X"]] 0).1 ["Y"])[0]? =
      [["X"]][0]? :=
  getParents_fresh [["X"]] 0 (by decide) ["Y"]

/-! Helper lemmas about reparent. -/

theorem findPage_map (pages : List Page) (f : Page → Page) (n : String)
    (hf : ∀ p, (f p).name = p.name) :
    (pages.map f).find? (fun q => q.name == n) =
      (pages.find? (fun q => q.name == n)).map f := by
  induction pages with
  | nil => rfl
  | cons p ps ih =>
      by_cases hb : p.name = n
      · rw [List.map_cons, List.find?_cons_of_pos _ (by simp [hf, hb]),
          List.find?_cons_of_pos _ (by simp [hb]), Option.map_some']
      · rw [List.map_cons, List.find?_cons_of_neg _ (by simp [hf, hb]),
          List.find?_cons_of_neg _ (by simp [hb]), ih]

theorem lookupA_setAssoc (m : List (String × List String)) (k : String) (v : List String) :
    lookupA (setAssoc m k v) k = some v := by
  induction m with
  | nil => simp [setAssoc, lookupA]
  | cons e rest ih =>
      by_cases hb : e.1 = k
      · simp [setAssoc, hb, lookupA]
      · have hb' : (e.1 == k) = false := by simpa using hb
        have hset : setAssoc (e :: rest) k v = e :: setAssoc rest k v := by
          simp [setAssoc, hb']
        rw [hset]
        unfold lookupA
        rw [List.find?_cons_of_neg _ (by simp [hb])]
        exact ih

theorem cleanParents_nil (pages : List Page) (s : String) : cleanParents pages s [] = [] := by
  rw [cleanParents_eq]; rfl

theorem reparentClean_of_unresolvable {resolve : String → Option String}
    {cands : List String} (h : ∀ c ∈ cands, resolve c = none) :
    reparentClean resolve cands = [] := by
  simp only [reparentClean]
  have : (cands.filter (fun x => x != "")).filterMap resolve = [] := by
    rw [List.filterMap_eq_nil_iff]
    intro a ha
    exact h a (List.mem_of_mem_filter ha)
  rw [this]
  rfl

theorem ifName_name (name : String) (v : List String) (p : Page) :
    (if p.name == name then { p with parents := v } else p).name = p.name := by
  split <;> rfl

theorem reparent_def_some (resolve : String → Option String) (w : Wiki) (o : Outline)
    (name : String) (cands : List String) (ho : w.outline = some o) :
    reparent resolve w name cands =
      ⟨w.pages.map (fun p => if p.name == name then
          { p with parents := setParentsValue (reparentClean resolve cands) } else p),
        some (olReparent o name (reparentClean resolve cands))⟩ := by
  simp only [reparent]
  rw [ho]
  rfl

theorem reparent_def_none (resolve : String → Option String) (w : Wiki)
    (name : String) (cands : List String) (ho : w.outline = none) :
    reparent resolve w name cands =
      ⟨(w.pages.map (fun p => if p.name == name then
            { p with parents := setParentsValue (reparentClean resolve cands) } else p)).map
          (ensureValidParents (w.pages.map (fun p => if p.name == name then
            { p with parents := setParentsValue (reparentClean resolve cands) } else p))),
        some (olReparent
          (mkOutline ((w.pages.map (fun p => if p.name == name then
              { p with parents := setParentsValue (reparentClean resolve cands) } else p)).map
            (ensureValidParents (w.pages.map (fun p => if p.name == name then
              { p with parents := setParentsValue (reparentClean resolve cands) } else p)))) [])
          name (reparentClean resolve cands))⟩ := by
  simp only [reparent]
  rw [ho]
  rfl

/-- C1 (amended): `reparent` resolves each candidate through the external
resolver, drops unresolved entries and deduplicates preserving first-seen
order, and that cleaned list — in first-seen order — is what it records in
the outline cache's parentmap for the node; but the parent list stored on
the node itself is the cleaned list sorted alphabetically, because
`setParents` sorts (see the counterexample).  Stated for a wiki whose
outline cache is present, so the lazy rebuild does not intervene. -/
theorem reparent_spec (resolve : String → Option String) (w : Wiki) (o : Outline)
    (name : String) (cands : List String) (ho : w.outline = some o)
    (hn : name ∈ pageNames w.pages) :
    parentsOf (reparent resolve w name cands) name =
      sortStrings (reparentClean resolve cands) ∧
    outlinePMof (reparent resolve w name cands) name =
      some (reparentClean resolve cands) := by
  rw [reparent_def_some resolve w o name cands ho]
  constructor
  · unfold parentsOf
    rw [findPage_map _ _ _ (fun p => ifName_name name _ p)]
    have hsome : (w.pages.find? (fun q => q.name == name)).isSome := by
      rw [List.find?_isSome]
      obtain ⟨q, hq, hqn⟩ := List.mem_map.mp hn
      exact ⟨q, hq, by simp [hqn]⟩
    obtain ⟨p0, hp0⟩ := Option.isSome_iff_exists.mp hsome
    have hname : p0.name = name := by simpa using List.find?_some hp0
    rw [hp0]
    simp [hname, setParentsValue]
  · unfold outlinePMof
    show lookupA (olReparent o name (reparentClean resolve cands)).parentmap name = _
    simp only [olReparent]
    exact lookupA_setAssoc _ _ _

/-- C1 witness: the amended reparent theorem applied to a concrete
three-page wiki with candidates given in non-alphabetical order. -/
theorem reparent_spec_witness :
    parentsOf (reparent (fun s => if s = "Zoo" ∨ s = "Apple" then some s else none)
        ⟨[⟨"Self", []⟩, ⟨"Apple", []⟩, ⟨"Zoo", []⟩], some ⟨[], [], []⟩⟩
        "Self" ["Zoo", "Apple"]) "Self" =
      sortStrings (reparentClean
        (fun s => if s = "Zoo" ∨ s = "Apple" then some s else none) ["Zoo", "Apple"]) ∧
    outlinePMof (reparent (fun s => if s = "Zoo" ∨ s = "Apple" then some s else none)
        ⟨[⟨"Self", []⟩, ⟨"Apple", []⟩, ⟨"Zoo", []⟩], some ⟨[], [], []⟩⟩
        "Self" ["Zoo", "Apple"]) "Self" =
      some (reparentClean
        (fun s => if s = "Zoo" ∨ s = "Apple" then some s else none) ["Zoo", "Apple"]) :=
  reparent_spec _ _ _ _ _ rfl (by decide)

/-- C1 counterexample: with two resolvable candidates given as
`["Zoo", "Apple"]`, the cleaned first-seen-order list is `["Zoo", "Apple"]`,
but the list stored on the node after `reparent` is the sorted
`["Apple", "Zoo"]` — not the cleaned list in first-seen order. -/
theorem reparent_firstseen_cex :
    reparentClean (fun s => if s = "Zoo" ∨ s = "Apple" then some s else none)
        ["Zoo", "Apple"] = ["Zoo", "Apple"] ∧
    parentsOf (reparent (fun s => if s = "Zoo" ∨ s = "Apple" then some s else none)
        ⟨[⟨"Self", []⟩, ⟨"Apple", []⟩, ⟨"Zoo", []⟩], some ⟨[], [], []⟩⟩
        "Self" ["Zoo", "Apple"]) "Self" = ["Apple", "Zoo"] := by
  constructor
  · decide
  · decide

/-- C6: `reparent` with an empty candidate list, or with candidates none of
which resolve to an existing page, succeeds (it is a total function) and
leaves the page with an empty parent list — and records an empty parent
list for the node in the outline cache — rather than failing. -/
theorem reparent_unresolvable (resolve : String → Option String) (w : Wiki)
    (name : String) (cands : List String) (h : ∀ c ∈ cands, resolve c = none) :
    parentsOf (reparent resolve w name cands) name = [] ∧
    outlinePMof (reparent resolve w name cands) name = some [] := by
  have hu : reparentClean resolve cands = [] := reparentClean_of_unresolvable h
  cases ho : w.outline with
  | some o =>
      rw [reparent_def_some resolve w o name cands ho, hu]
      constructor
      · unfold parentsOf
        rw [findPage_map _ _ _ (fun p => ifName_name name _ p)]
        cases hp0 : w.pages.find? (fun q => q.name == name) with
        | none => rfl
        | some p0 =>
            have hname : p0.name = name := by simpa using List.find?_some hp0
            simp [hname, setParentsValue, sortStrings]
      · unfold outlinePMof
        show lookupA (olReparent o name []).parentmap name = some []
        simp only [olReparent]
        exact lookupA_setAssoc _ _ _
  | none =>
      rw [reparent_def_none resolve w name cands ho, hu]
      constructor
      · unfold parentsOf
        rw [findPage_map _ _ _ (fun p => ensureValidParents_name _ p),
          findPage_map _ _ _ (fun p => ifName_name name _ p)]
        cases hp0 : w.pages.find? (fun q => q.name == name) with
        | none => rfl
        | some p0 =>
            have hname : p0.name = name := by simpa using List.find?_some hp0
            simp only [Option.map_some', Option.getD_some]
            rw [ensureValidParents_parents]
            have hfp : (if p0.name == name then
                { p0 with parents := setParentsValue ([] : List String) } else p0).parents
                = [] := by
              simp [hname, setParentsValue, sortStrings]
            rw [hfp, cleanParents_nil]
      · unfold outlinePMof
        show lookupA (olReparent _ name []).parentmap name = some []
        simp only [olReparent]
        exact lookupA_setAssoc _ _ _

/-- C6 witness: reparenting a concrete page with a single unresolvable
candidate leaves it parent-less in both the property and the cache. -/
theorem reparent_unresolvable_witness :
    parentsOf (reparent (fun _ => none)
        ⟨[⟨"A", ["X"]⟩], some ⟨[("A", ["X"])], [], []⟩⟩ "A" ["Nowhere"]) "A" = [] ∧
    outlinePMof (reparent (fun _ => none)
        ⟨[⟨"A", ["X"]⟩], some ⟨[("A", ["X"])], [], []⟩⟩ "A" ["Nowhere"]) "A" = some [] :=
  reparent_unresolvable _ _ _ _ (fun _ _ => rfl)

/-! Helper lemmas about the lazy outline cache and queries. -/

theorem stringLe_refl (a : String) : stringLe a a = true :=
  lexLe_refl a.data

theorem wikiOutline_some {w : Wiki} {o : Outline} (ho : w.outline = some o) :
    wikiOutline w = (o, w) := by
  unfold wikiOutline
  rw [ho]

theorem wikiOutline_none {w : Wiki} (ho : w.outline = none) :
    wikiOutline w = (((updateWikiOutline w).outline).getD ⟨[], [], []⟩, updateWikiOutline w) := by
  unfold wikiOutline
  rw [ho]

/-- C5: `primaryParentName` returns the first entry of the node's parentmap
list in the wiki outline, and none for a node with an absent or empty entry;
when that list is sorted (the stored-ParentList invariant), the first entry
is the lexicographically smallest parent name.  Stated for a wiki whose
outline cache is present. -/
theorem primaryParentName_spec (w : Wiki) (o : Outline) (n : String)
    (ho : w.outline = some o) :
    (lookupA o.parentmap n = none → (primaryParentNameQ w n).1 = none) ∧
    (lookupA o.parentmap n = some [] → (primaryParentNameQ w n).1 = none) ∧
    (∀ x t, lookupA o.parentmap n = some (x :: t) →
      (primaryParentNameQ w n).1 = some x ∧
      (List.Sorted (fun a b => stringLe a b = true) (x :: t) →
        ∀ y ∈ x :: t, stringLe x y = true)) := by
  have hq : primaryParentNameQ w n = (firstParent o n, w) := by
    simp only [primaryParentNameQ, wikiOutline_some ho]
  refine ⟨?_, ?_, ?_⟩
  · intro hl; rw [hq]; simp [firstParent, hl]
  · intro hl; rw [hq]; simp [firstParent, hl]
  · intro x t hl
    constructor
    · rw [hq]; simp [firstParent, hl]
    · intro hs y hy
      rcases List.mem_cons.mp hy with rfl | hy
      · exact stringLe_refl y
      · exact List.rel_of_sorted_cons hs y hy

/-- C5 witness: a node with parents `{"Zoo", "Apple"}` stored sorted as
`["Apple", "Zoo"]` has primary parent `"Apple"`, the lexicographic minimum. -/
theorem primaryParentName_spec_witness :
    (primaryParentNameQ ⟨[], some ⟨[("N", ["Apple", "Zoo"])], [], []⟩⟩ "N").1 =
      some "Apple" ∧
    stringLe "Apple" "Zoo" = true :=
  have h := (primaryParentName_spec ⟨[], some ⟨[("N", ["Apple", "Zoo"])], [], []⟩⟩
    ⟨[("N", ["Apple", "Zoo"])], [], []⟩ "N" rfl).2.2 "Apple" ["Zoo"] (by decide)
  ⟨h.1, h.2 (by decide) "Zoo" (by decide)⟩

theorem reorderChildren_not_mem {c : String} : ∀ {l : List String},
    c ∉ l → reorderChildren c l = l
  | [], _ => rfl
  | [_], _ => rfl
  | x :: y :: rest, h => by
      have hx : ¬ x = c := fun e => h (e ▸ List.mem_cons_self x (y :: rest))
      have hy : ¬ y = c := fun e =>
        h (List.mem_cons_of_mem x (e ▸ List.mem_cons_self y rest))
      simp only [reorderChildren]
      rw [if_neg hx, if_neg hy]
      have htail : c ∉ y :: rest := fun hc => h (List.mem_cons_of_mem x hc)
      rw [reorderChildren_not_mem htail]

theorem reorderChildren_head (c : String) (t : List String) :
    reorderChildren c (c :: t) = c :: t := by
  cases t with
  | nil => rfl
  | cons y rest => simp [reorderChildren]

theorem reorderChildren_swap (c : String) : ∀ (pre : List String) (a : String)
    (post : List String), c ∉ pre → ¬ a = c →
    reorderChildren c (pre ++ a :: c :: post) = pre ++ c :: a :: post
  | [], a, post, _, ha => by simp [reorderChildren, ha]
  | p :: pre', a, post, hpre, ha => by
      have hp : ¬ p = c := fun e => hpre (e ▸ List.mem_cons_self p pre')
      have hcons : ∃ q L, pre' ++ a :: c :: post = q :: L ∧ ¬ q = c := by
        cases pre' with
        | nil => exact ⟨a, c :: post, rfl, ha⟩
        | cons r pre'' =>
            exact ⟨r, pre'' ++ a :: c :: post, rfl,
              fun e => hpre (List.mem_cons_of_mem p (e ▸ List.mem_cons_self r pre''))⟩
      obtain ⟨q, L, hQ, hqc⟩ := hcons
      rw [List.cons_append, hQ]
      simp only [reorderChildren]
      rw [if_neg hp, if_neg hqc, ← hQ,
        reorderChildren_swap c pre' a post
          (fun hc => hpre (List.mem_cons_of_mem p hc)) ha]
      simp

theorem lookupA_mapAssoc (m : List (String × List String)) (k : String)
    (f : List String → List String) :
    lookupA (mapAssoc m k f) k = (lookupA m k).map f := by
  induction m with
  | nil => rfl
  | cons e rest ih =>
      obtain ⟨k1, v1⟩ := e
      by_cases hb : k1 = k
      · subst hb
        simp [mapAssoc, lookupA, List.find?_cons]
      · have hb' : (k1 == k) = false := by simpa using hb
        simp only [mapAssoc, List.map_cons, hb', if_false]
        unfold lookupA
        rw [List.find?_cons_of_neg _ (by simpa using hb),
          List.find?_cons_of_neg _ (by simpa using hb)]
        exact ih

theorem reorderOp_def_mem (w : Wiki) (o : Outline) (name child : String)
    (ho : w.outline = some o) (hmem : child ∈ olChildren o name) :
    reorderOp w name child = { w with outline := some (olReorder o name child) } := by
  simp only [reorderOp, wikiOutline_some ho]
  rw [if_pos hmem]

theorem reorderOp_def_not_mem (w : Wiki) (o : Outline) (name child : String)
    (ho : w.outline = some o) (hmem : child ∉ olChildren o name) :
    reorderOp w name child = w := by
  simp only [reorderOp, wikiOutline_some ho]
  rw [if_neg hmem]

/-- C4: `reorder(node, child)` swaps the first occurrence of `child` with
its immediate left neighbor in the node's child list (moving it one
position earlier), and is a no-op on the child list when `child` is not
among the node's children or is already first.  Stated for a wiki whose
outline cache is present. -/
theorem reorder_spec (w : Wiki) (o : Outline) (name child : String)
    (ho : w.outline = some o) :
    (child ∉ olChildren o name →
      outlineChildrenOf (reorderOp w name child) name = olChildren o name) ∧
    (∀ t, olChildren o name = child :: t →
      outlineChildrenOf (reorderOp w name child) name = child :: t) ∧
    (∀ pre a post, olChildren o name = pre ++ a :: child :: post → child ∉ pre →
      ¬ a = child →
      outlineChildrenOf (reorderOp w name child) name = pre ++ child :: a :: post) := by
  have key : ∀ cs, olChildren o name = cs → cs ≠ [] → child ∈ cs →
      outlineChildrenOf (reorderOp w name child) name = reorderChildren child cs := by
    intro cs hcs hne hmem
    rw [reorderOp_def_mem w o name child ho (hcs ▸ hmem)]
    show olChildren (olReorder o name child) name = _
    simp only [olChildren, olReorder, lookupA_mapAssoc]
    cases hl : lookupA o.childmap name with
    | none =>
        exact absurd (show cs = [] by rw [← hcs]; simp [olChildren, hl]) hne
    | some v =>
        have hv : v = cs := by simpa [olChildren, hl] using hcs
        simp [hv]
  refine ⟨?_, ?_, ?_⟩
  · intro hmem
    rw [reorderOp_def_not_mem w o name child ho hmem]
    show outlineChildrenOf w name = _
    simp [outlineChildrenOf, ho]
  · intro t ht
    rw [key (child :: t) ht (by simp) (List.mem_cons_self child t),
      reorderChildren_head]
  · intro pre a post hsplit hpre ha
    rw [key (pre ++ a :: child :: post) hsplit (by simp) (by simp),
      reorderChildren_swap child pre a post hpre ha]

/-- C4 witness: with children `[B, C, D]`, `reorder(A, D)` yields
`[B, D, C]` and `reorder(A, B)` (already first) leaves `[B, C, D]`. -/
theorem reorder_spec_witness :
    outlineChildrenOf (reorderOp ⟨[], some ⟨[], [("A", ["B", "C", "D"])], []⟩⟩
      "A" "D") "A" = ["B", "D", "C"] ∧
    outlineChildrenOf (reorderOp ⟨[], some ⟨[], [("A", ["B", "C", "D"])], []⟩⟩
      "A" "B") "A" = ["B", "C", "D"] :=
  ⟨(reorder_spec ⟨[], some ⟨[], [("A", ["B", "C", "D"])], []⟩⟩
      ⟨[], [("A", ["B", "C", "D"])], []⟩ "A" "D" rfl).2.2
      ["B"] "C" [] (by decide) (by decide) (by decide),
   (reorder_spec ⟨[], some ⟨[], [("A", ["B", "C", "D"])], []⟩⟩
      ⟨[], [("A", ["B", "C", "D"])], []⟩ "A" "B" rfl).2.1
      ["C", "D"] (by decide)⟩

/-- C7: every hierarchy query (primary parent, children, siblings,
ancestors, offspring, first/last/next/previous) obtains the outline through
`wikiOutline`, which triggers a rebuild exactly when the cached outline is
absent: when the outline exists, `wikiOutline` returns the cached object and
the query leaves the wiki state — and hence the cached outline — unchanged;
when it is absent, the query's only state effect is the one lazy
`updateWikiOutline` rebuild. -/
theorem queries_lazy_cache (w : Wiki) (n : String) :
    (∀ o, w.outline = some o →
      wikiOutline w = (o, w) ∧
      (primaryParentNameQ w n).2 = w ∧
      (childrenAsListQ w n).2 = w ∧
      (siblingsAsListQ w n).2 = w ∧
      (ancestorsNestingQ w n).2 = w ∧
      (offspringNestingQ w n).2 = w ∧
      (firstPageQ w).2 = w ∧
      (lastPageQ w).2 = w ∧
      (nextPageQ w n).2 = w ∧
      (previousPageQ w n).2 = w) ∧
    (w.outline = none →
      (wikiOutline w).2 = updateWikiOutline w ∧
      (primaryParentNameQ w n).2 = updateWikiOutline w ∧
      (childrenAsListQ w n).2 = updateWikiOutline w ∧
      (siblingsAsListQ w n).2 = updateWikiOutline w ∧
      (ancestorsNestingQ w n).2 = updateWikiOutline w ∧
      (offspringNestingQ w n).2 = updateWikiOutline w ∧
      (firstPageQ w).2 = updateWikiOutline w ∧
      (lastPageQ w).2 = updateWikiOutline w ∧
      (nextPageQ w n).2 = updateWikiOutline w ∧
      (previousPageQ w n).2 = updateWikiOutline w) := by
  constructor
  · intro o ho
    have hw := wikiOutline_some ho
    simp [primaryParentNameQ, childrenAsListQ, siblingsAsListQ, ancestorsNestingQ,
      offspringNestingQ, firstPageQ, lastPageQ, nextPageQ, previousPageQ, hw]
  · intro ho
    have hw := wikiOutline_none ho
    simp [primaryParentNameQ, childrenAsListQ, siblingsAsListQ, ancestorsNestingQ,
      offspringNestingQ, firstPageQ, lastPageQ, nextPageQ, previousPageQ, hw]

/-- C7 witness: on a wiki with a (trivial) cached outline, `wikiOutline`
returns the cache and a query leaves the state unchanged. -/
theorem queries_lazy_cache_witness :
    wikiOutline ⟨[], some ⟨[], [], []⟩⟩ = (⟨[], [], []⟩, ⟨[], some ⟨[], [], []⟩⟩) ∧
    (childrenAsListQ ⟨[], some ⟨[], [], []⟩⟩ "A").2 = ⟨[], some ⟨[], [], []⟩⟩ :=
  have h := (queries_lazy_cache ⟨[], some ⟨[], [], []⟩⟩ "A").1 ⟨[], [], []⟩ rfl
  ⟨h.1, h.2.2.1⟩

/-- C8 (code evaluated at the failing input): rendering a page's context
from an empty ancestors nesting — the structural anomaly the spec's
self-healing policy addresses — does not clear the page's ParentList.  The
reset guard in `context` compares the rendered hierarchy against the
literal `'<ul>\n</ul>'`, but `renderNesting` always opens its output with
`'<ul class="aqtree3clickable">'`, so the guard can never fire: the parents
survive unchanged and the empty fragment is returned as-is. -/
theorem context_reset_guard_dead :
    contextFromNesting ⟨"", "", "A", fun s => s, fun s => s, fun s => s⟩
        ["SomeParent"] [] true =
      ("<small><ul class=\"aqtree3clickable\">\n</ul>\n</small>", ["SomeParent"]) := by
  rfl
